import Mathlib

/-!
Verification of the ECH codec in this repository (src/ech.go, src/main.go).

The embedding models bytes as `Fin 256` and byte strings as `List Byte`.
Machine integers (`uint8`, `uint16`) are modelled as `Nat`, with explicit
`% 2 ^ w` arithmetic exactly where the Go code performs a narrowing
conversion or fixed-width arithmetic.

The Go code reads its input through `golang.org/x/crypto/cryptobyte`.
The reader primitives below (`readUint8`, `readUint16`, `readBytes`,
`readUint8LengthPrefixed`, `readUint16LengthPrefixed`, `skipBytes`) model the
documented semantics of the corresponding `cryptobyte.String` methods: each
reads from the front of the string and fails (returns `none`) when fewer
bytes remain than required; `Skip n` consumes `n` bytes on success and
leaves the string unchanged on failure (its `Bool` result is ignored by the
caller in src/ech.go line 69).
-/

set_option maxRecDepth 8000

abbrev Byte := Fin 256

/-- Build a byte from a `Nat`, reducing mod 256 (Go's `byte(v)` conversion). -/
def byte (n : Nat) : Byte := ⟨n % 256, Nat.mod_lt _ (by omega)⟩

/-- Big-endian 2-byte encoding of a `Nat` as written by cryptobyte's
`AddUint16` (`byte(v >> 8), byte(v)`). -/
def u16bytes (n : Nat) : List Byte := [byte (n / 256), byte (n % 256)]

/-- Model of `cryptobyte.String.ReadUint8`. -/
def readUint8 : List Byte → Option (Nat × List Byte)
  | [] => none
  | b :: rest => some (b.val, rest)

/-- Model of `cryptobyte.String.ReadUint16` (big-endian). -/
def readUint16 : List Byte → Option (Nat × List Byte)
  | b0 :: b1 :: rest => some (b0.val * 256 + b1.val, rest)
  | _ => none

/-- Model of `cryptobyte.String.ReadBytes`: take `n` bytes off the front,
failing when fewer than `n` remain. -/
def readBytes (n : Nat) (s : List Byte) : Option (List Byte × List Byte) :=
  if n ≤ s.length then some (s.take n, s.drop n) else none

/-- Model of `cryptobyte.String.ReadUint8LengthPrefixed`. -/
def readUint8LengthPrefixed (s : List Byte) : Option (List Byte × List Byte) :=
  match readUint8 s with
  | none => none
  | some (n, rest) => readBytes n rest

/-- Model of `cryptobyte.String.ReadUint16LengthPrefixed`. -/
def readUint16LengthPrefixed (s : List Byte) : Option (List Byte × List Byte) :=
  match readUint16 s with
  | none => none
  | some (n, rest) => readBytes n rest

/-- Model of `cryptobyte.String.Skip n` with the `Bool` result ignored:
consumes `n` bytes when available, otherwise leaves the string unchanged. -/
def skipBytes (n : Nat) (s : List Byte) : List Byte :=
  if n ≤ s.length then s.drop n else s

/-- src/ech.go: `type echCipher struct { KDFID, AEADID uint16 }`. -/
structure EchCipher where
  KDFID : Nat
  AEADID : Nat
deriving DecidableEq

/-- src/ech.go: `type echExtension struct { Type uint16; Data []byte }`
(the field `Type` is spelled `Typ` because `Type` is reserved in Lean). -/
structure EchExtension where
  Typ : Nat
  Data : List Byte
deriving DecidableEq

/-- src/ech.go: `type echConfig struct { ... }`. -/
structure EchConfig where
  raw : List Byte
  Version : Nat
  Length : Nat
  ConfigID : Nat
  KemID : Nat
  PublicKey : List Byte
  SymmetricCipherSuite : List EchCipher
  MaxNameLength : Nat
  PublicName : List Byte
  Extensions : List EchExtension
deriving DecidableEq

/-- src/ech.go line 37: `const extensionEncryptedClientHello uint16 = 0xfe0d`. -/
def extensionEncryptedClientHello : Nat := 0xfe0d

/-- src/ech.go lines 85-94: the inner loop reading the cipher-suite
sub-region as `(KDFID: uint16, AEADID: uint16)` pairs until it is empty.
A leftover of 1 byte fails the first `ReadUint16`; a leftover of 2 or 3
bytes fails the second. -/
def parseCipherSuites : List Byte → Option (List EchCipher)
  | [] => some []
  | [_] => none
  | [_, _] => none
  | [_, _, _] => none
  | a :: b :: c :: d :: rest =>
    match parseCipherSuites rest with
    | none => none
    | some suites => some (⟨a.val * 256 + b.val, c.val * 256 + d.val⟩ :: suites)

/-- src/ech.go lines 107-116: the inner loop reading the extensions
sub-region as `(Type: uint16, Data: uint16-length-prefixed)` records until
it is empty.  `ReadUint16LengthPrefixed` (read a 2-byte big-endian length
word, then that many bytes, failing when fewer remain) is destructured
inline: a 1-byte leftover fails the type read, a 2- or 3-byte leftover
fails the length-word read. -/
def parseExtensions : List Byte → Option (List EchExtension)
  | [] => some []
  | t0 :: t1 :: l0 :: l1 :: rest =>
    let n := l0.val * 256 + l1.val
    if n ≤ rest.length then
      match parseExtensions (rest.drop n) with
      | none => none
      | some exts => some (⟨t0.val * 256 + t1.val, rest.take n⟩ :: exts)
    else none
  | _ => none
termination_by s => s.length
decreasing_by
  simp only [List.length_cons, List.length_drop]
  omega

/-- src/ech.go lines 72-116: the body of a recognized-version entry,
read field by field from the running cursor `s` (the bytes after the
4-byte entry header).  `raw`, `version` and `entryLen` are the values
already read by the loop in `parseECHConfigList`. -/
def parseConfigBody (raw : List Byte) (version entryLen : Nat) (s : List Byte) :
    Option (EchConfig × List Byte) :=
  match readUint8 s with
  | none => none
  | some (configID, s1) =>
    match readUint16 s1 with
    | none => none
    | some (kemID, s2) =>
      match readUint16LengthPrefixed s2 with
      | none => none
      | some (publicKey, s3) =>
        match readUint16LengthPrefixed s3 with
        | none => none
        | some (csBytes, s4) =>
          match parseCipherSuites csBytes with
          | none => none
          | some suites =>
            match readUint8 s4 with
            | none => none
            | some (maxNameLength, s5) =>
              match readUint8LengthPrefixed s5 with
              | none => none
              | some (publicName, s6) =>
                match readUint16LengthPrefixed s6 with
                | none => none
                | some (extBytes, s7) =>
                  match parseExtensions extBytes with
                  | none => none
                  | some exts =>
                    some ({ raw := raw, Version := version, Length := entryLen,
                            ConfigID := configID, KemID := kemID,
                            PublicKey := publicKey,
                            SymmetricCipherSuite := suites,
                            MaxNameLength := maxNameLength,
                            PublicName := publicName,
                            Extensions := exts }, s7)

/-- src/ech.go lines 54-119: the entry loop of `parseECHConfigList`,
operating on the bytes after the outer 2-byte length word.  Each iteration
snapshots the remaining bytes as `raw`, reads `Version` and `Length`
(failing on a short read), checks `len(raw) < int(Length)+4`, truncates
`raw` to `Length+4` bytes (a `uint16` addition, hence the `% 65536`), and
either skips `Length` bytes (unrecognized version) or parses the entry
body from the running cursor. -/
def parseConfigs : List Byte → Option (List EchConfig)
  | [] => some []
  | v0 :: v1 :: l0 :: l1 :: s2 =>
    let version := v0.val * 256 + v1.val
    let entryLen := l0.val * 256 + l1.val
    if (v0 :: v1 :: l0 :: l1 :: s2).length < entryLen + 4 then none
    else
      let raw := (v0 :: v1 :: l0 :: l1 :: s2).take ((entryLen + 4) % 65536)
      if version ≠ extensionEncryptedClientHello then
        parseConfigs (skipBytes entryLen s2)
      else
        match h : parseConfigBody raw version entryLen s2 with
        | none => none
        | some (c, r) =>
          match parseConfigs r with
          | none => none
          | some cfgs => some (c :: cfgs)
  | _ => none
termination_by s => s.length
decreasing_by
  · simp only [skipBytes, List.length_cons]
    split
    · simp only [List.length_drop]; omega
    · omega
  · have len8 : ∀ (x : List Byte) (v : Nat) (r : List Byte),
        readUint8 x = some (v, r) → r.length + 1 = x.length := by
      intro x v r hh
      rcases x with _ | ⟨a, t⟩
      · simp [readUint8] at hh
      · simp only [readUint8, Option.some.injEq, Prod.mk.injEq] at hh
        rw [← hh.2]; simp
    have len16 : ∀ (x : List Byte) (v : Nat) (r : List Byte),
        readUint16 x = some (v, r) → r.length + 2 = x.length := by
      intro x v r hh
      rcases x with _ | ⟨a, _ | ⟨b, t⟩⟩
      · simp [readUint16] at hh
      · simp [readUint16] at hh
      · simp only [readUint16, Option.some.injEq, Prod.mk.injEq] at hh
        rw [← hh.2]; simp
    have lenB : ∀ (n : Nat) (x : List Byte) (v r : List Byte),
        readBytes n x = some (v, r) → r.length ≤ x.length := by
      intro n x v r hh
      simp only [readBytes] at hh
      split at hh
      · simp only [Option.some.injEq, Prod.mk.injEq] at hh
        rw [← hh.2]; simp
      · exact absurd hh (by simp)
    have lenLP16 : ∀ (x : List Byte) (v r : List Byte),
        readUint16LengthPrefixed x = some (v, r) → r.length ≤ x.length := by
      intro x v r hh
      simp only [readUint16LengthPrefixed] at hh
      split at hh
      · exact absurd hh (by simp)
      · next n rest heq =>
          have h1 := len16 _ _ _ heq
          have h2 := lenB _ _ _ _ hh
          omega
    have lenLP8 : ∀ (x : List Byte) (v r : List Byte),
        readUint8LengthPrefixed x = some (v, r) → r.length ≤ x.length := by
      intro x v r hh
      simp only [readUint8LengthPrefixed] at hh
      split at hh
      · exact absurd hh (by simp)
      · next n rest heq =>
          have h1 := len8 _ _ _ heq
          have h2 := lenB _ _ _ _ hh
          omega
    have key : ∀ (rw : List Byte) (v n : Nat) (s : List Byte) (c : EchConfig) (r : List Byte),
        parseConfigBody rw v n s = some (c, r) → r.length ≤ s.length := by
      intro rw v n s c r h
      simp only [parseConfigBody] at h
      split at h
      · exact absurd h (by simp)
      · next cid s1 h1 =>
        split at h
        · exact absurd h (by simp)
        · next kem s2x h2 =>
          split at h
          · exact absurd h (by simp)
          · next pk s3 h3 =>
            split at h
            · exact absurd h (by simp)
            · next cs s4 h4 =>
              split at h
              · exact absurd h (by simp)
              · next suites h5 =>
                split at h
                · exact absurd h (by simp)
                · next mnl s5 h6 =>
                  split at h
                  · exact absurd h (by simp)
                  · next pn s6 h7 =>
                    split at h
                    · exact absurd h (by simp)
                    · next eb s7 h8 =>
                      split at h
                      · exact absurd h (by simp)
                      · next exts h9 =>
                        simp only [Option.some.injEq, Prod.mk.injEq] at h
                        have hr : r = s7 := h.2.symm
                        subst hr
                        have a1 := len8 _ _ _ h1
                        have a2 := len16 _ _ _ h2
                        have a3 := lenLP16 _ _ _ h3
                        have a4 := lenLP16 _ _ _ h4
                        have a5 := len8 _ _ _ h6
                        have a6 := lenLP8 _ _ _ h7
                        have a7 := lenLP16 _ _ _ h8
                        omega
    have hk := key _ _ _ _ _ _ h
    simp only [List.length_cons]
    omega

/-- src/ech.go lines 44-121: `parseECHConfigList`.  Reads the outer 2-byte
big-endian length word (failing on fewer than 2 bytes) and compares it with
`uint16(len(data)-2)` — note the narrowing `uint16` conversion, modelled by
`% 65536` — then runs the entry loop on the remaining bytes.  `none` models
returning `errMalformedECHConfig`. -/
def parseECHConfigList (data : List Byte) : Option (List EchConfig) :=
  match data with
  | b0 :: b1 :: rest =>
    if b0.val * 256 + b1.val ≠ rest.length % 65536 then none
    else parseConfigs rest
  | _ => none

/-- src/ech.go lines 123-132: `generateOuterECHExt`.  The cryptobyte
`Builder` appends `0`, `kdfID` (2 bytes big-endian), `aeadID` (2 bytes),
`id` (1 byte), then `encodedKey` and `payload` each behind a 2-byte
big-endian length word.  Per cryptobyte's documented semantics,
`Builder.Bytes` returns an error when a length-prefixed child does not fit
its fixed-width length word, i.e. when it is longer than 65535 bytes;
`none` models that error return. -/
def generateOuterECHExt (id kdfID aeadID : Nat) (encodedKey payload : List Byte) :
    Option (List Byte) :=
  if encodedKey.length ≤ 65535 ∧ payload.length ≤ 65535 then
    some (byte 0 :: (u16bytes kdfID ++ u16bytes aeadID ++ (byte id ::
      (u16bytes encodedKey.length ++ encodedKey ++ u16bytes payload.length ++ payload))))
  else none

/-- src/ech.go lines 146-158: the per-label loop of `validDNSName`
(`for i, r := range l`), carried out with the byte index `i` and the byte
length `labelLen` of the label, exactly as Go computes them.  Go ranges
over runes, but the verdict is byte-for-byte identical on every input:
every rune ≥ 0x80 (including the replacement rune produced for invalid
UTF-8) fails the alphanumeric-or-hyphen test just as its leading byte
does, and runes < 0x80 coincide with single bytes. -/
def validLabelLoop (labelLen : Nat) : Nat → List Byte → Bool
  | _, [] => true
  | i, r :: rest =>
    if r.val = 45 ∧ (i = 0 ∨ i = labelLen - 1) then false
    else if (r.val < 48 ∨ 57 < r.val) ∧ (r.val < 97 ∨ 122 < r.val) ∧
            (r.val < 65 ∨ 90 < r.val) ∧ r.val ≠ 45 then false
    else validLabelLoop labelLen (i + 1) rest

/-- src/ech.go lines 138-161: `validDNSName`.  The name is modelled as its
byte sequence (Go strings are byte strings); `strings.Split(name, ".")` is
`List.splitOn` on the dot byte 46. -/
def validDNSName (name : List Byte) : Bool :=
  if 253 < name.length then false
  else
    let labels := name.splitOn (byte 46)
    if labels.length ≤ 1 then false
    else labels.all fun l => if l.length = 0 then false else validLabelLoop l.length 0 l

/-- src/main.go: `type SvcParam struct { Key uint16; Value []byte }`. -/
structure SvcParam where
  Key : Nat
  Value : List Byte
deriving DecidableEq

/-- src/main.go: `type HttpsRecord struct { Priority uint16; TargetName string;
Params []SvcParam }`. -/
structure HttpsRecord where
  Priority : Nat
  TargetName : List Byte
  Params : List SvcParam
deriving DecidableEq

/-- src/main.go lines 61-67: the target-name scan of `parseHttpsRecord`:
advance from offset 2 until a zero byte; fail if none is found before the
end of the data; the name is the bytes before the zero and the cursor
moves past the zero byte. -/
def scanName : List Byte → Option (List Byte × List Byte)
  | [] => none
  | b :: rest =>
    if b.val = 0 then some ([], rest)
    else
      match scanName rest with
      | none => none
      | some (nm, after) => some (b :: nm, after)

/-- src/main.go lines 72-84: the SvcParam loop of `parseHttpsRecord`:
while at least 4 bytes remain, read a 2-byte key and a 2-byte length, fail
if the declared length overruns the data, otherwise take that many value
bytes; fewer than 4 remaining bytes end the loop successfully. -/
def parseParams : List Byte → Option (List SvcParam)
  | k0 :: k1 :: l0 :: l1 :: rest =>
    let key := k0.val * 256 + k1.val
    let len := l0.val * 256 + l1.val
    if rest.length < len then none
    else
      match parseParams (rest.drop len) with
      | none => none
      | some ps => some ({ Key := key, Value := rest.take len } :: ps)
  | _ => some []
termination_by s => s.length
decreasing_by
  simp only [List.length_cons, List.length_drop]
  omega

/-- src/main.go lines 50-87: `parseHttpsRecord`.  `none` models the error
returns (`invalid data length`, `invalid target name in data`,
`invalid parameter length`). -/
def parseHttpsRecord (data : List Byte) : Option HttpsRecord :=
  if data.length < 3 then none
  else
    match data with
    | d0 :: d1 :: rest =>
      match scanName rest with
      | none => none
      | some (nm, after) =>
        match parseParams after with
        | none => none
        | some ps =>
          some { Priority := d0.val * 256 + d1.val, TargetName := nm, Params := ps }
    | _ => none

/-- Serializer for a cipher-suite sub-region: the pairs laid out
back-to-back, each identifier big-endian 16-bit. -/
def encodeSuites : List EchCipher → List Byte
  | [] => []
  | c :: cs => u16bytes c.KDFID ++ u16bytes c.AEADID ++ encodeSuites cs

/-- Serializer for an extensions sub-region: each extension as a 2-byte
type followed by its 2-byte-length-prefixed data. -/
def encodeExts : List EchExtension → List Byte
  | [] => []
  | e :: es => u16bytes e.Typ ++ (u16bytes e.Data.length ++ e.Data) ++ encodeExts es

/-- The byte layout of the body of a recognized-version ECH config entry
(the bytes following the 4-byte version/length header), per
draft-ietf-tls-esni-18 as read by src/ech.go lines 72-116. -/
def mkEntryContent (cid kem : Nat) (pk : List Byte) (cs : List EchCipher)
    (mnl : Nat) (pn : List Byte) (exts : List EchExtension) : List Byte :=
  byte cid :: (u16bytes kem ++ (u16bytes pk.length ++ pk) ++
    (u16bytes (encodeSuites cs).length ++ encodeSuites cs) ++
    (byte mnl :: byte pn.length :: pn) ++
    (u16bytes (encodeExts exts).length ++ encodeExts exts))

/-- A whole recognized-version entry: 2-byte version 0xfe0d, 2-byte body
length, body. -/
def mkRecognizedEntry (cid kem : Nat) (pk : List Byte) (cs : List EchCipher)
    (mnl : Nat) (pn : List Byte) (exts : List EchExtension) : List Byte :=
  byte 0xfe :: byte 0x0d ::
    (u16bytes (mkEntryContent cid kem pk cs mnl pn exts).length ++
      mkEntryContent cid kem pk cs mnl pn exts)

/-- The `EchConfig` value that decoding `mkRecognizedEntry` must produce. -/
def mkParsedConfig (cid kem : Nat) (pk : List Byte) (cs : List EchCipher)
    (mnl : Nat) (pn : List Byte) (exts : List EchExtension) : EchConfig :=
  { raw := mkRecognizedEntry cid kem pk cs mnl pn exts
    Version := 0xfe0d
    Length := (mkEntryContent cid kem pk cs mnl pn exts).length
    ConfigID := cid
    KemID := kem
    PublicKey := pk
    SymmetricCipherSuite := cs
    MaxNameLength := mnl
    PublicName := pn
    Extensions := exts }

/-- Serializer for one HTTPS-record service parameter: 2-byte key, 2-byte
value length, value bytes. -/
def encodeParam (p : SvcParam) : List Byte :=
  u16bytes p.Key ++ u16bytes p.Value.length ++ p.Value

/-- Serializer for a sequence of service parameters laid out back-to-back. -/
def encodeParams : List SvcParam → List Byte
  | [] => []
  | p :: ps => encodeParam p ++ encodeParams ps

/-- A byte sequence that is a well-formed concatenation of ECH config
entries none of which carries the recognized version 0xfe0d: each entry is
a 2-byte version different from 0xfe0d, a 2-byte big-endian length word,
and exactly that many body bytes. -/
inductive SkippableEntries : List Byte → Prop where
  | nil : SkippableEntries []
  | entry (v0 v1 l0 l1 : Byte) (body rest : List Byte)
      (hv : v0.val * 256 + v1.val ≠ extensionEncryptedClientHello)
      (hb : body.length = l0.val * 256 + l1.val)
      (h : SkippableEntries rest) :
      SkippableEntries (v0 :: v1 :: l0 :: l1 :: (body ++ rest))

/-- The domain-name validity predicate as the specification words it: total
length at most 253, at least two labels when split on the dot, and every
label non-empty, made only of ASCII digits, lowercase letters, uppercase
letters or hyphens, with a hyphen neither at the first nor at the last
position of the label. -/
def ValidLabelSpec (l : List Byte) : Prop :=
  l ≠ [] ∧
  ∀ i (h : i < l.length),
    ((48 ≤ (l.get ⟨i, h⟩).val ∧ (l.get ⟨i, h⟩).val ≤ 57) ∨
     (97 ≤ (l.get ⟨i, h⟩).val ∧ (l.get ⟨i, h⟩).val ≤ 122) ∨
     (65 ≤ (l.get ⟨i, h⟩).val ∧ (l.get ⟨i, h⟩).val ≤ 90) ∨
     (l.get ⟨i, h⟩).val = 45) ∧
    ((l.get ⟨i, h⟩).val = 45 → i ≠ 0 ∧ i ≠ l.length - 1)

/-- The whole-name validity predicate following the specification text. -/
def ValidDNSNameSpec (name : List Byte) : Prop :=
  name.length ≤ 253 ∧
  2 ≤ (name.splitOn (byte 46)).length ∧
  ∀ l ∈ name.splitOn (byte 46), ValidLabelSpec l

/-! ### Helper lemmas -/

theorem byte_val_of_lt {n : Nat} (h : n < 256) : (byte n).val = n := by
  simp [byte, Nat.mod_eq_of_lt h]

theorem u16_val {n : Nat} (h : n < 65536) :
    (byte (n / 256)).val * 256 + (byte (n % 256)).val = n := by
  simp only [byte]
  omega

theorem readUint16_u16bytes {n : Nat} (h : n < 65536) (l : List Byte) :
    readUint16 (u16bytes n ++ l) = some (n, l) := by
  simp only [u16bytes, List.cons_append, List.nil_append, readUint16, Option.some.injEq,
    Prod.mk.injEq]
  exact ⟨u16_val h, trivial⟩

theorem readBytes_exact (xs l : List Byte) :
    readBytes xs.length (xs ++ l) = some (xs, l) := by
  simp [readBytes, List.take_left, List.drop_left]

theorem readU16LP {xs : List Byte} (h : xs.length < 65536) (l : List Byte) :
    readUint16LengthPrefixed (u16bytes xs.length ++ (xs ++ l)) = some (xs, l) := by
  rw [readUint16LengthPrefixed, readUint16_u16bytes h]
  exact readBytes_exact xs l

theorem readU8LP {xs : List Byte} (h : xs.length < 256) (l : List Byte) :
    readUint8LengthPrefixed (byte xs.length :: (xs ++ l)) = some (xs, l) := by
  rw [readUint8LengthPrefixed]
  simp only [readUint8, byte_val_of_lt h]
  exact readBytes_exact xs l

theorem skipBytes_exact (xs l : List Byte) : skipBytes xs.length (xs ++ l) = l := by
  simp [skipBytes, List.drop_left]

theorem parseCipherSuites_encode {cs : List EchCipher}
    (h : ∀ c ∈ cs, c.KDFID < 65536 ∧ c.AEADID < 65536) :
    parseCipherSuites (encodeSuites cs) = some cs := by
  induction cs with
  | nil => rfl
  | cons c cs ih =>
    obtain ⟨h1, h2⟩ := h c (by simp)
    have ih2 := ih fun x hx => h x (List.mem_cons_of_mem _ hx)
    simp [encodeSuites, u16bytes, parseCipherSuites, ih2, u16_val h1, u16_val h2]

theorem parseExtensions_encode {es : List EchExtension}
    (h : ∀ e ∈ es, e.Typ < 65536 ∧ e.Data.length < 65536) :
    parseExtensions (encodeExts es) = some es := by
  induction es with
  | nil => simp [encodeExts, parseExtensions]
  | cons e es ih =>
    obtain ⟨h1, h2⟩ := h e (by simp)
    have ih2 := ih fun x hx => h x (List.mem_cons_of_mem _ hx)
    simp only [encodeExts, u16bytes, List.cons_append, List.nil_append, List.append_assoc]
    simp only [parseExtensions, u16_val h1, u16_val h2]
    simp [List.take_left, List.drop_left, ih2]

theorem parseConfigBody_encode (raw : List Byte) (v el cid kem mnl : Nat)
    (pk pn : List Byte) (cs : List EchCipher) (exts : List EchExtension) (rest : List Byte)
    (hcid : cid < 256) (hkem : kem < 65536) (hpk : pk.length < 65536)
    (hcs : ∀ c ∈ cs, c.KDFID < 65536 ∧ c.AEADID < 65536)
    (hcsl : (encodeSuites cs).length < 65536)
    (hmnl : mnl < 256) (hpn : pn.length < 256)
    (hexts : ∀ e ∈ exts, e.Typ < 65536 ∧ e.Data.length < 65536)
    (hextl : (encodeExts exts).length < 65536) :
    parseConfigBody raw v el (mkEntryContent cid kem pk cs mnl pn exts ++ rest) =
      some ({ raw := raw, Version := v, Length := el, ConfigID := cid, KemID := kem,
              PublicKey := pk, SymmetricCipherSuite := cs, MaxNameLength := mnl,
              PublicName := pn, Extensions := exts }, rest) := by
  have hcs' := parseCipherSuites_encode hcs
  have hex' := parseExtensions_encode hexts
  simp only [mkEntryContent, List.cons_append, List.append_assoc]
  simp only [parseConfigBody, readUint8, byte_val_of_lt hcid, byte_val_of_lt hmnl,
    readUint16_u16bytes hkem, readU16LP hpk, readU16LP hcsl, readU16LP hextl,
    readU8LP hpn, hcs', hex']

theorem parseCipherSuites_not_mod4 : ∀ (bs : List Byte), bs.length % 4 ≠ 0 →
    parseCipherSuites bs = none
  | [], h => absurd rfl h
  | [_], _ => rfl
  | [_, _], _ => rfl
  | [_, _, _], _ => rfl
  | a :: b :: c :: d :: rest, h => by
    have hr : rest.length % 4 ≠ 0 := by
      simp only [List.length_cons] at h
      omega
    have ih := parseCipherSuites_not_mod4 rest hr
    simp [parseCipherSuites, ih]

theorem parseCipherSuites_complete : ∀ (bs : List Byte) (cs : List EchCipher),
    parseCipherSuites bs = some cs →
    bs = encodeSuites cs ∧ ∀ c ∈ cs, c.KDFID < 65536 ∧ c.AEADID < 65536
  | [], cs, h => by
    simp only [parseCipherSuites, Option.some.injEq] at h
    subst h
    exact ⟨rfl, by simp⟩
  | [_], cs, h => by simp [parseCipherSuites] at h
  | [_, _], cs, h => by simp [parseCipherSuites] at h
  | [_, _, _], cs, h => by simp [parseCipherSuites] at h
  | a :: b :: c :: d :: rest, cs, h => by
    simp only [parseCipherSuites] at h
    split at h
    · exact absurd h (by simp)
    · next suites heq =>
      simp only [Option.some.injEq] at h
      obtain ⟨hbs, hmem⟩ := parseCipherSuites_complete rest suites heq
      subst h
      constructor
      · simp only [encodeSuites, u16bytes, List.cons_append, List.nil_append, ← hbs]
        have e1 : byte ((a.val * 256 + b.val) / 256) = a := by
          apply Fin.ext
          simp only [byte]
          omega
        have e2 : byte ((a.val * 256 + b.val) % 256) = b := by
          apply Fin.ext
          simp only [byte]
          omega
        have e3 : byte ((c.val * 256 + d.val) / 256) = c := by
          apply Fin.ext
          simp only [byte]
          omega
        have e4 : byte ((c.val * 256 + d.val) % 256) = d := by
          apply Fin.ext
          simp only [byte]
          omega
        rw [e1, e2, e3, e4]
      · intro x hx
        rcases List.mem_cons.mp hx with hx | hx
        · subst hx
          constructor
          · have := a.isLt
            have := b.isLt
            simp only []
            omega
          · have := c.isLt
            have := d.isLt
            simp only []
            omega
        · exact hmem x hx

theorem parseConfigs_skip (v0 v1 l0 l1 : Byte) (body rest : List Byte)
    (hv : v0.val * 256 + v1.val ≠ extensionEncryptedClientHello)
    (hb : body.length = l0.val * 256 + l1.val) :
    parseConfigs (v0 :: v1 :: l0 :: l1 :: (body ++ rest)) = parseConfigs rest := by
  rw [parseConfigs]
  rw [if_neg (by simp only [List.length_cons, List.length_append]; omega)]
  rw [if_pos hv]
  rw [← hb, skipBytes_exact]

theorem parseConfigs_skippable {bs : List Byte} (h : SkippableEntries bs) :
    parseConfigs bs = some [] := by
  induction h with
  | nil => simp [parseConfigs]
  | entry v0 v1 l0 l1 body rest hv hb _ ih =>
    rw [parseConfigs_skip v0 v1 l0 l1 body rest hv hb, ih]

theorem parseECHConfigList_wrap (bs : List Byte) (h : bs.length ≤ 65535) :
    parseECHConfigList (u16bytes bs.length ++ bs) = parseConfigs bs := by
  simp only [u16bytes, List.cons_append, List.nil_append, parseECHConfigList]
  rw [if_neg]
  simp only [ne_eq, not_not]
  rw [u16_val (by omega), Nat.mod_eq_of_lt (by omega)]

theorem parseConfigs_cons_recognized (v0 v1 l0 l1 : Byte) (s2 : List Byte)
    (hv : v0.val * 256 + v1.val = extensionEncryptedClientHello)
    (hlen : l0.val * 256 + l1.val ≤ s2.length) :
    parseConfigs (v0 :: v1 :: l0 :: l1 :: s2) =
      match parseConfigBody ((v0 :: v1 :: l0 :: l1 :: s2).take
          ((l0.val * 256 + l1.val + 4) % 65536)) (v0.val * 256 + v1.val)
          (l0.val * 256 + l1.val) s2 with
      | none => none
      | some (c, r) =>
        match parseConfigs r with
        | none => none
        | some cfgs => some (c :: cfgs) := by
  rw [parseConfigs]
  rw [if_neg (by simp only [List.length_cons]; omega)]
  rw [if_neg (by simp [hv])]
  split
  · next heq => rw [heq]
  · next c r heq => rw [heq]

theorem parseConfigs_entry (cid kem mnl : Nat) (pk pn : List Byte) (cs : List EchCipher)
    (exts : List EchExtension)
    (hcid : cid < 256) (hkem : kem < 65536) (hpk : pk.length < 65536)
    (hcs : ∀ c ∈ cs, c.KDFID < 65536 ∧ c.AEADID < 65536)
    (hcsl : (encodeSuites cs).length < 65536)
    (hmnl : mnl < 256) (hpn : pn.length < 256)
    (hexts : ∀ e ∈ exts, e.Typ < 65536 ∧ e.Data.length < 65536)
    (hextl : (encodeExts exts).length < 65536)
    (hcl : (mkEntryContent cid kem pk cs mnl pn exts).length + 4 ≤ 65535) :
    parseConfigs (mkRecognizedEntry cid kem pk cs mnl pn exts) =
      some [mkParsedConfig cid kem pk cs mnl pn exts] := by
  have hcl' : (mkEntryContent cid kem pk cs mnl pn exts).length < 65536 := by omega
  have hfe : (byte 0xfe).val * 256 + (byte 0x0d).val = extensionEncryptedClientHello := by
    decide
  have hb := parseConfigBody_encode
    ((byte 0xfe :: byte 0x0d :: byte ((mkEntryContent cid kem pk cs mnl pn exts).length / 256) ::
      byte ((mkEntryContent cid kem pk cs mnl pn exts).length % 256) ::
      mkEntryContent cid kem pk cs mnl pn exts))
    ((byte 0xfe).val * 256 + (byte 0x0d).val)
    ((mkEntryContent cid kem pk cs mnl pn exts).length)
    cid kem mnl pk pn cs exts []
    hcid hkem hpk hcs hcsl hmnl hpn hexts hextl
  rw [List.append_nil] at hb
  simp only [mkRecognizedEntry, u16bytes, List.cons_append, List.nil_append]
  rw [parseConfigs_cons_recognized _ _ _ _ _ hfe
    (by rw [u16_val hcl'])]
  simp only [u16_val hcl']
  rw [Nat.mod_eq_of_lt (by omega)]
  rw [List.take_of_length_le (by simp only [List.length_cons]; omega)]
  rw [hb]
  simp only [parseConfigs]
  simp only [mkParsedConfig, mkRecognizedEntry, u16bytes, List.cons_append, List.nil_append,
    hfe, extensionEncryptedClientHello]

theorem validLabelLoop_iff (n : Nat) : ∀ (i : Nat) (l : List Byte),
    validLabelLoop n i l = true ↔
      ∀ j (h : j < l.length),
        ((48 ≤ (l.get ⟨j, h⟩).val ∧ (l.get ⟨j, h⟩).val ≤ 57) ∨
         (97 ≤ (l.get ⟨j, h⟩).val ∧ (l.get ⟨j, h⟩).val ≤ 122) ∨
         (65 ≤ (l.get ⟨j, h⟩).val ∧ (l.get ⟨j, h⟩).val ≤ 90) ∨
         (l.get ⟨j, h⟩).val = 45) ∧
        ((l.get ⟨j, h⟩).val = 45 → i + j ≠ 0 ∧ i + j ≠ n - 1) := by
  intro i l
  induction l generalizing i with
  | nil =>
    simp only [validLabelLoop, List.length_nil]
    constructor
    · intro _ j hj; omega
    · intro _; trivial
  | cons r rest ih =>
    rw [validLabelLoop]
    by_cases c1 : r.val = 45 ∧ (i = 0 ∨ i = n - 1)
    · rw [if_pos c1]
      constructor
      · intro h; exact absurd h (by simp)
      · intro hspec
        have h0 := hspec 0 (by simp)
        simp only [List.get] at h0
        exact absurd c1 (by have := h0.2; intro hc; have := this hc.1; omega)
    · rw [if_neg c1]
      by_cases c2 : (r.val < 48 ∨ 57 < r.val) ∧ (r.val < 97 ∨ 122 < r.val) ∧
          (r.val < 65 ∨ 90 < r.val) ∧ r.val ≠ 45
      · rw [if_pos c2]
        constructor
        · intro h; exact absurd h (by simp)
        · intro hspec
          have h0 := hspec 0 (by simp)
          simp only [List.get] at h0
          have := h0.1
          omega
      · rw [if_neg c2]
        rw [ih (i + 1)]
        constructor
        · intro hrest j hj
          match j, hj with
          | 0, hj =>
            simp only [List.get]
            constructor
            · omega
            · intro h45
              constructor
              · intro hiz
                exact c1 ⟨h45, Or.inl (by omega)⟩
              · intro hin
                exact c1 ⟨h45, Or.inr (by omega)⟩
          | j + 1, hj =>
            have hh := hrest j (by simpa using Nat.lt_of_succ_lt_succ hj)
            simp only [List.get]
            constructor
            · exact hh.1
            · intro h45
              have := hh.2 h45
              omega
        · intro hspec j hj
          have hh := hspec (j + 1) (by simpa using Nat.succ_lt_succ hj)
          simp only [List.get] at hh
          constructor
          · exact hh.1
          · intro h45
            have := hh.2 h45
            omega

theorem validDNSName_iff (name : List Byte) :
    validDNSName name = true ↔ ValidDNSNameSpec name := by
  simp only [validDNSName, ValidDNSNameSpec]
  by_cases h1 : 253 < name.length
  · rw [if_pos h1]
    constructor
    · intro h; exact absurd h (by simp)
    · intro h; omega
  · rw [if_neg h1]
    by_cases h2 : (name.splitOn (byte 46)).length ≤ 1
    · rw [if_pos h2]
      constructor
      · intro h; exact absurd h (by simp)
      · intro h; omega
    · rw [if_neg h2]
      rw [List.all_eq_true]
      constructor
      · intro hall
        refine ⟨by omega, by omega, ?_⟩
        intro l hl
        have hthis := hall l hl
        by_cases hz : l.length = 0
        · rw [if_pos hz] at hthis; exact absurd hthis (by simp)
        · rw [if_neg hz] at hthis
          have hlad := (validLabelLoop_iff l.length 0 l).mp hthis
          refine ⟨fun he => hz (by simp [he]), ?_⟩
          intro j hj
          have hh := hlad j hj
          refine ⟨hh.1, fun h45 => ?_⟩
          have := hh.2 h45
          omega
      · intro hspec l hl
        obtain ⟨hne, hforall⟩ := (hspec.2.2) l hl
        rw [if_neg (fun hz => hne (List.length_eq_zero.mp hz))]
        apply (validLabelLoop_iff l.length 0 l).mpr
        intro j hj
        have hh := hforall j hj
        refine ⟨hh.1, fun h45 => ?_⟩
        have := hh.2 h45
        omega

theorem scanName_no_zero {nm : List Byte} (h : ∀ b ∈ nm, b.val ≠ 0) (rest : List Byte) :
    scanName (nm ++ (byte 0 :: rest)) = some (nm, rest) := by
  induction nm with
  | nil => simp [scanName, byte]
  | cons b nm ih =>
    have hb := h b (by simp)
    rw [List.cons_append, scanName, if_neg hb,
      ih fun x hx => h x (List.mem_cons_of_mem _ hx)]

theorem parseParams_short : ∀ {s : List Byte}, s.length < 4 → parseParams s = some []
  | [], _ => by simp [parseParams]
  | [_], _ => by simp [parseParams]
  | [_, _], _ => by simp [parseParams]
  | [_, _, _], _ => by simp [parseParams]
  | _ :: _ :: _ :: _ :: _, h => by
    simp only [List.length_cons] at h
    omega

theorem parseParams_encode {ps : List SvcParam}
    (hb : ∀ p ∈ ps, p.Key < 65536 ∧ p.Value.length ≤ 65535)
    (tail : List Byte) (ht : tail.length < 4) :
    parseParams (encodeParams ps ++ tail) = some ps := by
  induction ps with
  | nil => simpa [encodeParams] using parseParams_short ht
  | cons p ps ih =>
    obtain ⟨h1, h2⟩ := hb p (by simp)
    have ih2 := ih fun x hx => hb x (List.mem_cons_of_mem _ hx)
    simp only [encodeParams, encodeParam, u16bytes, List.cons_append, List.nil_append,
      List.append_assoc]
    rw [parseParams]
    rw [u16_val (by omega : p.Value.length < 65536)]
    rw [if_neg (by simp only [List.length_append]; omega)]
    rw [List.drop_left, ih2]
    rw [List.take_left]
    simp [u16_val h1]

/-! ### Claim theorems -/

/-- Claim C5: for every configId, kdfId, aeadId and byte sequences
`encodedKey`, `payload` of length at most 65535, the outer-extension
encoder succeeds and returns exactly the concatenation of one zero byte,
kdfId big-endian 16-bit, aeadId big-endian 16-bit, configId as one byte,
a 2-byte big-endian length word followed by `encodedKey`, and a 2-byte
big-endian length word followed by `payload`; the output length is
`10 + |encodedKey| + |payload|` (so 18 when the lengths are 3 and 5) and
the first byte is 0. -/
theorem C5_outer_ext_layout (id kdfID aeadID : Nat) (encodedKey payload : List Byte)
    (hk : kdfID < 65536) (ha : aeadID < 65536)
    (he : encodedKey.length ≤ 65535) (hp : payload.length ≤ 65535) :
    generateOuterECHExt id kdfID aeadID encodedKey payload =
      some ([byte 0, byte (kdfID / 256), byte (kdfID % 256), byte (aeadID / 256),
             byte (aeadID % 256), byte id, byte (encodedKey.length / 256),
             byte (encodedKey.length % 256)] ++ encodedKey ++
            ([byte (payload.length / 256), byte (payload.length % 256)] ++ payload)) ∧
    (generateOuterECHExt id kdfID aeadID encodedKey payload).map List.length =
      some (10 + encodedKey.length + payload.length) ∧
    (generateOuterECHExt id kdfID aeadID encodedKey payload).bind List.head? =
      some (byte 0) := by
  refine ⟨?_, ?_, ?_⟩
  · simp [generateOuterECHExt, u16bytes, he, hp]
  · simp [generateOuterECHExt, u16bytes, he, hp]
    omega
  · simp [generateOuterECHExt, he, hp]

theorem C5_witness :
    (generateOuterECHExt 7 1 2 [byte 1, byte 2, byte 3]
      [byte 4, byte 5, byte 6, byte 7, byte 8]).map List.length = some 18 ∧
    (generateOuterECHExt 7 1 2 [byte 1, byte 2, byte 3]
      [byte 4, byte 5, byte 6, byte 7, byte 8]).bind List.head? = some (byte 0) := by
  have h := C5_outer_ext_layout 7 1 2 [byte 1, byte 2, byte 3]
    [byte 4, byte 5, byte 6, byte 7, byte 8]
    (by omega) (by omega) (by simp) (by simp)
  exact ⟨by simpa using h.2.1, h.2.2⟩

/-- Claim C8: whenever `encodedKey` or `payload` is longer than 65535
bytes, the outer-extension encoder reports an error (modelled `none`)
instead of emitting bytes with a truncated or wrapped 16-bit length word;
this models cryptobyte's `Builder.Bytes` erroring when a length-prefixed
child exceeds its fixed-width length word. -/
theorem C8_oversize_rejected (id kdfID aeadID : Nat) (encodedKey payload : List Byte)
    (h : 65535 < encodedKey.length ∨ 65535 < payload.length) :
    generateOuterECHExt id kdfID aeadID encodedKey payload = none := by
  simp only [generateOuterECHExt]
  rw [if_neg (by omega)]

theorem C8_witness :
    generateOuterECHExt 0 0 0 (List.replicate 65536 (byte 0)) [] = none :=
  C8_oversize_rejected 0 0 0 _ _ (by simp only [List.length_replicate]; omega)

/-- The 4-byte RDATA `00 02 00 00` of claim C2. -/
def c2data : List Byte := [byte 0, byte 2, byte 0, byte 0]

/-- Claim C2 counterexample: decoding `00 02 00 00` does not yield
priority 0 — the first two bytes are the big-endian priority, so the
priority is 2, not 0. -/
theorem C2_counterexample :
    parseHttpsRecord c2data ≠ some { Priority := 0, TargetName := [], Params := [] } := by
  have hp : parseParams [(0 : Byte)] = some [] := parseParams_short (by simp)
  simp [c2data, parseHttpsRecord, scanName, byte, hp]

/-- Claim C2 (amended): decoding the RDATA `00 02 00 00` succeeds and
returns priority 2 (big-endian `00 02`), an empty target name, and no
service parameters; the byte after the name's zero terminator is ignored
because fewer than 4 bytes remain. -/
theorem C2_amended :
    parseHttpsRecord c2data = some { Priority := 2, TargetName := [], Params := [] } := by
  have hp : parseParams [(0 : Byte)] = some [] := parseParams_short (by simp)
  simp [c2data, parseHttpsRecord, scanName, byte, hp]

/-- The byte string of the literal name `-bad.example`. -/
def dnsNameBad : List Byte :=
  [byte 45, byte 98, byte 97, byte 100, byte 46,
   byte 101, byte 120, byte 97, byte 109, byte 112, byte 108, byte 101]

/-- The byte string of the literal name `good-name.example`. -/
def dnsNameGood : List Byte :=
  [byte 103, byte 111, byte 111, byte 100, byte 45, byte 110, byte 97, byte 109, byte 101,
   byte 46, byte 101, byte 120, byte 97, byte 109, byte 112, byte 108, byte 101]

/-- The byte string of the literal name `nodot`. -/
def dnsNameNoDot : List Byte :=
  [byte 110, byte 111, byte 100, byte 111, byte 116]

/-- Claim C6: the domain-name validator accepts a name exactly when its
length is at most 253, splitting on the dot yields at least two labels,
and every label is non-empty, made only of ASCII alphanumerics and
hyphens, with no hyphen at the first or last position; in particular it
rejects `-bad.example`, accepts `good-name.example`, and rejects `nodot`. -/
theorem C6_validDNSName :
    (∀ name : List Byte, validDNSName name = true ↔ ValidDNSNameSpec name) ∧
    validDNSName dnsNameBad = false ∧
    validDNSName dnsNameGood = true ∧
    validDNSName dnsNameNoDot = false :=
  ⟨validDNSName_iff, by decide, by decide, by decide⟩

/-- Claim C9: every well-formed ECHConfigList with zero recognized-version
entries decodes to the empty list without error: the minimal list (a zero
length word and nothing else) and any list made only of well-formed
unrecognized-version entries. -/
theorem C9_empty_result_ok :
    (∀ bs : List Byte, SkippableEntries bs → bs.length ≤ 65535 →
      parseECHConfigList (u16bytes bs.length ++ bs) = some []) ∧
    parseECHConfigList [byte 0, byte 0] = some [] := by
  constructor
  · intro bs hs hl
    rw [parseECHConfigList_wrap bs hl, parseConfigs_skippable hs]
  · simp [parseECHConfigList, byte, parseConfigs]

theorem C9_witness :
    parseECHConfigList (u16bytes ([byte 0, byte 0, byte 0, byte 0] : List Byte).length ++
      [byte 0, byte 0, byte 0, byte 0]) = some [] := by
  have hsk : SkippableEntries [byte 0, byte 0, byte 0, byte 0] := by
    have h := SkippableEntries.entry (byte 0) (byte 0) (byte 0) (byte 0) [] []
      (by decide) (by decide) SkippableEntries.nil
    simpa using h
  exact C9_empty_result_ok.1 [byte 0, byte 0, byte 0, byte 0] hsk (by simp)

/-- Claim C10: when the HTTPS-record decoder reaches the end of the
parameter area with 1 to 3 bytes left over (too few for another 4-byte
key/length header), decoding still succeeds, the trailing bytes appear in
no service parameter, and no error is raised. -/
theorem C10_trailing_bytes_ignored (p0 p1 : Byte) (nm : List Byte) (ps : List SvcParam)
    (tail : List Byte)
    (hnm : ∀ b ∈ nm, b.val ≠ 0)
    (hps : ∀ p ∈ ps, p.Key < 65536 ∧ p.Value.length ≤ 65535)
    (ht1 : 1 ≤ tail.length) (ht3 : tail.length ≤ 3) :
    parseHttpsRecord (p0 :: p1 :: (nm ++ (byte 0 :: (encodeParams ps ++ tail)))) =
      some { Priority := p0.val * 256 + p1.val, TargetName := nm, Params := ps } := by
  have hsc := scanName_no_zero hnm (encodeParams ps ++ tail)
  have hpp := parseParams_encode hps tail (by omega)
  simp only [parseHttpsRecord]
  rw [if_neg (by simp only [List.length_cons, List.length_append]; omega)]
  simp only [hsc, hpp]

theorem C10_witness :
    parseHttpsRecord [byte 0, byte 0, byte 0, byte 0, byte 5, byte 0, byte 1, byte 1, byte 9] =
      some { Priority := 0, TargetName := [], Params := [{ Key := 5, Value := [byte 1] }] } := by
  have h := C10_trailing_bytes_ignored (byte 0) (byte 0) [] [{ Key := 5, Value := [byte 1] }]
    [byte 9] (by simp) (by simp) (by simp) (by simp)
  simpa [encodeParams, encodeParam, u16bytes, byte] using h

/-- Claim C7: the cipher-suite sub-region is read as consecutive
`(kdfId, aeadId)` big-endian 16-bit pairs until exhausted — a successful
parse means the region is exactly the back-to-back encoding of the
returned pairs, and every such encoding parses back — while a region whose
length is not a multiple of 4 makes the cipher-suite reader, and with it
the whole entry parse, fail (modelled `none`). -/
theorem C7_cipher_suite_pairs :
    (∀ (bs : List Byte) (cs : List EchCipher), parseCipherSuites bs = some cs →
        bs = encodeSuites cs ∧ ∀ c ∈ cs, c.KDFID < 65536 ∧ c.AEADID < 65536) ∧
    (∀ cs : List EchCipher, (∀ c ∈ cs, c.KDFID < 65536 ∧ c.AEADID < 65536) →
        parseCipherSuites (encodeSuites cs) = some cs) ∧
    (∀ bs : List Byte, bs.length % 4 ≠ 0 → parseCipherSuites bs = none) ∧
    (∀ (rawv : List Byte) (v el cid kem : Nat) (pk csb rest : List Byte),
        cid < 256 → kem < 65536 → pk.length < 65536 → csb.length < 65536 →
        csb.length % 4 ≠ 0 →
        parseConfigBody rawv v el (byte cid :: (u16bytes kem ++ (u16bytes pk.length ++
          (pk ++ (u16bytes csb.length ++ (csb ++ rest)))))) = none) := by
  refine ⟨parseCipherSuites_complete, fun cs h => parseCipherSuites_encode h,
    parseCipherSuites_not_mod4, ?_⟩
  intro rawv v el cid kem pk csb rest hcid hkem hpk hcsb hmod
  simp only [parseConfigBody, readUint8, byte_val_of_lt hcid,
    readUint16_u16bytes hkem, readU16LP hpk, readU16LP hcsb,
    parseCipherSuites_not_mod4 csb hmod]

theorem C7_witness :
    parseCipherSuites [byte 0] = none ∧
    parseConfigBody [] 65037 1 (byte 7 :: (u16bytes 32 ++ (u16bytes 0 ++
      ([] ++ (u16bytes 1 ++ ([byte 0] ++ [])))))) = none :=
  ⟨C7_cipher_suite_pairs.2.2.1 [byte 0] (by simp),
   C7_cipher_suite_pairs.2.2.2 [] 65037 1 7 32 [] [byte 0] []
     (by omega) (by omega) (by simp) (by simp) (by simp)⟩

/-- An ECHConfigList whose single recognized-version entry declares
`entryLength = 1` while its fields occupy 13 bytes after the 4-byte
header: outer length word `00 11` (17), entry header `fe 0d 00 01`, then
configId `07`, kemId `00 20`, publicKey `00 02 aa bb`, empty cipher-suite
region `00 00`, maxNameLength `0a`, empty publicName `00`, empty
extensions `00 00`. Every field after the configId lies beyond the
entry's declared 1-byte region. -/
def c1data : List Byte :=
  [byte 0x00, byte 0x11, byte 0xfe, byte 0x0d, byte 0x00, byte 0x01, byte 0x07,
   byte 0x00, byte 0x20, byte 0x00, byte 0x02, byte 0xaa, byte 0xbb,
   byte 0x00, byte 0x00, byte 0x0a, byte 0x00, byte 0x00, byte 0x00]

/-- The config that decoding `c1data` produces: its `raw`/`Length` record
the declared 1-byte region, yet its fields were read far beyond it. -/
def c1config : EchConfig :=
  { raw := [byte 0xfe, byte 0x0d, byte 0x00, byte 0x01, byte 0x07]
    Version := 0xfe0d
    Length := 1
    ConfigID := 7
    KemID := 32
    PublicKey := [byte 0xaa, byte 0xbb]
    SymmetricCipherSuite := []
    MaxNameLength := 10
    PublicName := []
    Extensions := [] }

theorem c1data_parses :
    parseECHConfigList c1data = some [c1config] := by
  have hb : parseConfigBody [byte 0xfe, byte 0x0d, byte 0x00, byte 0x01, byte 0x07] 65037 1
      [byte 0x07, byte 0x00, byte 0x20, byte 0x00, byte 0x02, byte 0xaa, byte 0xbb,
       byte 0x00, byte 0x00, byte 0x0a, byte 0x00, byte 0x00, byte 0x00] =
      some (c1config, []) := by
    simp [parseConfigBody, readUint8, readUint16, readUint16LengthPrefixed,
      readUint8LengthPrefixed, readBytes, parseCipherSuites, parseExtensions, byte, c1config]
    decide
  simp only [c1data, parseECHConfigList]
  rw [if_neg (by decide)]
  rw [parseConfigs_cons_recognized (byte 0xfe) (byte 0x0d) (byte 0x00) (byte 0x01) _
    (by decide) (by decide)]
  norm_num [byte] at hb ⊢
  rw [hb]
  simp [parseConfigs]

/-- Claim C1 counterexample: in `c1data` the recognized entry declares
`entryLength = 1`, yet its kemId, publicKey (bytes `aa bb`), cipher-suite
region, maxNameLength, publicName and extensions are all read from beyond
that 1-byte region — and the decode succeeds instead of failing with
`MalformedECHConfigList`. -/
theorem C1_counterexample :
    parseECHConfigList c1data = some [c1config] ∧
    c1config.Length = 1 ∧
    c1config.PublicKey = [byte 0xaa, byte 0xbb] ∧
    c1config.raw.length = 5 :=
  ⟨c1data_parses, rfl, rfl, rfl⟩

/-- Claim C1 (amended): the decoder checks only that `entryLength + 4`
does not exceed the bytes remaining at the entry's start, failing the
whole decode with `MalformedECHConfigList` otherwise; a recognized entry's
fields are then parsed from the running cursor without being confined to
the `entryLength`-byte region, so a field whose declared length exceeds
the bytes remaining in the whole input fails the entire decode, while a
field may consume bytes beyond the entry's declared region (belonging to
subsequent entries) without error, as `c1data` shows. -/
theorem C1_amended :
    (∀ (b0 b1 v0 v1 l0 l1 : Byte) (s2 : List Byte),
        b0.val * 256 + b1.val = (s2.length + 4) % 65536 →
        s2.length < l0.val * 256 + l1.val →
        parseECHConfigList (b0 :: b1 :: v0 :: v1 :: l0 :: l1 :: s2) = none) ∧
    (∀ (b0 b1 l0 l1 cid k0 k1 p0 p1 : Byte) (rest : List Byte),
        b0.val * 256 + b1.val = (rest.length + 9) % 65536 →
        l0.val * 256 + l1.val ≤ rest.length + 5 →
        rest.length < p0.val * 256 + p1.val →
        parseECHConfigList (b0 :: b1 :: byte 0xfe :: byte 0x0d :: l0 :: l1 ::
          cid :: k0 :: k1 :: p0 :: p1 :: rest) = none) ∧
    parseECHConfigList c1data = some [c1config] := by
  refine ⟨?_, ?_, c1data_parses⟩
  · intro b0 b1 v0 v1 l0 l1 s2 houter hshort
    simp only [parseECHConfigList]
    rw [if_neg (by simp only [List.length_cons]; omega)]
    rw [parseConfigs]
    rw [if_pos (by simp only [List.length_cons]; omega)]
  · intro b0 b1 l0 l1 cid k0 k1 p0 p1 rest houter hfit hover
    have hbody : parseConfigBody
        ((byte 0xfe :: byte 0x0d :: l0 :: l1 :: cid :: k0 :: k1 :: p0 :: p1 :: rest).take
          ((l0.val * 256 + l1.val + 4) % 65536))
        ((byte 0xfe).val * 256 + (byte 0x0d).val) (l0.val * 256 + l1.val)
        (cid :: k0 :: k1 :: p0 :: p1 :: rest) = none := by
      simp only [parseConfigBody, readUint8, readUint16, readUint16LengthPrefixed, readBytes]
      rw [if_neg (by omega)]
    simp only [parseECHConfigList]
    rw [if_neg (by simp only [List.length_cons]; omega)]
    rw [parseConfigs_cons_recognized _ _ _ _ _ (by decide)
      (by simp only [List.length_cons]; omega)]
    rw [hbody]

theorem C1_witness :
    parseECHConfigList [byte 0, byte 5, byte 0, byte 0, byte 0, byte 9, byte 0] = none :=
  C1_amended.1 (byte 0) (byte 5) (byte 0) (byte 0) (byte 0) (byte 9) [byte 0]
    (by decide) (by decide)

/-- Claim C4: a well-formed list made of one unrecognized-version entry
followed by one recognized-version entry decodes to exactly the one-element
list holding the recognized entry: the unrecognized entry (version word,
length word, and exactly as many body bytes as declared) is skipped without
error, and the result is determined by the recognized entry's components
alone, so no byte of the skipped entry appears in it. -/
theorem C4_unrecognized_skipped (uv0 uv1 : Byte) (ubody : List Byte)
    (cid kem mnl : Nat) (pk pn : List Byte) (cs : List EchCipher) (exts : List EchExtension)
    (huv : uv0.val * 256 + uv1.val ≠ extensionEncryptedClientHello)
    (hub : ubody.length < 65536)
    (hcid : cid < 256) (hkem : kem < 65536) (hpk : pk.length < 65536)
    (hcs : ∀ c ∈ cs, c.KDFID < 65536 ∧ c.AEADID < 65536)
    (hcsl : (encodeSuites cs).length < 65536)
    (hmnl : mnl < 256) (hpn : pn.length < 256)
    (hexts : ∀ e ∈ exts, e.Typ < 65536 ∧ e.Data.length < 65536)
    (hextl : (encodeExts exts).length < 65536)
    (hcl : (mkEntryContent cid kem pk cs mnl pn exts).length + 4 ≤ 65535)
    (htot : ((uv0 :: uv1 :: (u16bytes ubody.length ++ ubody)) ++
        mkRecognizedEntry cid kem pk cs mnl pn exts).length ≤ 65535) :
    parseECHConfigList
      (u16bytes ((uv0 :: uv1 :: (u16bytes ubody.length ++ ubody)) ++
          mkRecognizedEntry cid kem pk cs mnl pn exts).length ++
        ((uv0 :: uv1 :: (u16bytes ubody.length ++ ubody)) ++
          mkRecognizedEntry cid kem pk cs mnl pn exts)) =
      some [mkParsedConfig cid kem pk cs mnl pn exts] := by
  rw [parseECHConfigList_wrap _ htot]
  have hshape : (uv0 :: uv1 :: (u16bytes ubody.length ++ ubody)) ++
      mkRecognizedEntry cid kem pk cs mnl pn exts =
      uv0 :: uv1 :: byte (ubody.length / 256) :: byte (ubody.length % 256) ::
        (ubody ++ mkRecognizedEntry cid kem pk cs mnl pn exts) := by
    simp [u16bytes]
  rw [hshape]
  rw [parseConfigs_skip uv0 uv1 _ _ ubody _ huv (u16_val hub).symm]
  exact parseConfigs_entry cid kem mnl pk pn cs exts
    hcid hkem hpk hcs hcsl hmnl hpn hexts hextl hcl

theorem C4_witness :
    parseECHConfigList
      (u16bytes ((byte 0 :: byte 0 :: (u16bytes (List.length ([] : List Byte)) ++ [])) ++
          mkRecognizedEntry 1 2 [] [] 0 [] []).length ++
        ((byte 0 :: byte 0 :: (u16bytes (List.length ([] : List Byte)) ++ [])) ++
          mkRecognizedEntry 1 2 [] [] 0 [] [])) =
      some [mkParsedConfig 1 2 [] [] 0 [] []] := by
  apply C4_unrecognized_skipped (byte 0) (byte 0) [] 1 2 0 [] [] [] []
  · decide
  · decide
  · omega
  · omega
  · decide
  · simp
  · decide
  · omega
  · decide
  · simp
  · decide
  · decide
  · decide

/-- The last 7 bytes of `c3data`: a second well-formed unrecognized entry
(version `00 00`, length `00 03`, 3 body bytes). -/
def c3tail : List Byte := [byte 0, byte 0, byte 0, byte 3, byte 0, byte 0, byte 0]

/-- A 65548-byte ECHConfigList input whose 2-byte length word says 10
while 65546 bytes follow it.  Because the decoder compares the length word
with `uint16(len(data)-2)` and `65546 % 65536 = 10`, the check passes.
The body is two well-formed unrecognized-version entries: one with
declared length 65535 and one with declared length 3. -/
def c3data : List Byte :=
  byte 0 :: byte 10 :: byte 0 :: byte 0 :: byte 255 :: byte 255 ::
    (List.replicate 65535 (byte 0) ++ c3tail)

/-- Claim C3 counterexample: `c3data` has 65546 bytes after its length
word, the length word says 10, yet decoding succeeds (returning the empty
list) instead of failing with `MalformedECHConfigList`: the comparison is
performed modulo 2^16. -/
theorem C3_counterexample :
    c3data.length = 65548 ∧
    c3data.take 2 = u16bytes 10 ∧
    parseECHConfigList c3data = some [] := by
  have hrl : (byte 0 :: byte 0 :: byte 255 :: byte 255 ::
      (List.replicate 65535 (byte 0) ++ c3tail) : List Byte).length = 65546 := by
    rw [List.length_cons, List.length_cons, List.length_cons, List.length_cons,
      List.length_append, List.length_replicate, c3tail]
    rfl
  refine ⟨?_, by rw [c3data]; rfl, ?_⟩
  · rw [c3data, List.length_cons, List.length_cons, hrl]
  · simp only [c3data, parseECHConfigList]
    rw [if_neg (by rw [hrl]; decide)]
    have hb : (List.replicate 65535 (byte 0)).length =
        (byte 255).val * 256 + (byte 255).val := by
      rw [List.length_replicate]; decide
    rw [parseConfigs_skip _ _ _ _ _ _ (by decide) hb]
    have h2 : parseConfigs c3tail = parseConfigs [] := by
      have h := parseConfigs_skip (byte 0) (byte 0) (byte 0) (byte 3)
        [byte 0, byte 0, byte 0] [] (by decide) (by decide)
      simpa [c3tail] using h
    rw [h2]
    simp [parseConfigs]

/-- Claim C3 (amended): the decoder fails with `MalformedECHConfigList`
when fewer than 2 bytes are present, and whenever the leading 2-byte
big-endian length word differs from the remaining byte count reduced
modulo 2^16 (the Go code compares against `uint16(len(data)-2)`); when
the remainder is below 65536 — in particular for every input of at most
65537 bytes — this is exact equality, covering both truncation (fewer
bytes than declared, e.g. a length word of 10 followed by 8 bytes) and
trailing garbage (more bytes than declared), so no truncated list is ever
returned there. -/
theorem C3_amended :
    (∀ data : List Byte, data.length < 2 → parseECHConfigList data = none) ∧
    (∀ (b0 b1 : Byte) (rest : List Byte), b0.val * 256 + b1.val ≠ rest.length % 65536 →
        parseECHConfigList (b0 :: b1 :: rest) = none) ∧
    (∀ (b0 b1 : Byte) (rest : List Byte), rest.length < 65536 →
        b0.val * 256 + b1.val ≠ rest.length →
        parseECHConfigList (b0 :: b1 :: rest) = none) ∧
    parseECHConfigList (u16bytes 10 ++ List.replicate 8 (byte 0)) = none := by
  refine ⟨?_, ?_, ?_, by decide⟩
  · intro data hlen
    rcases data with _ | ⟨a, _ | ⟨b, rest⟩⟩
    · simp [parseECHConfigList]
    · simp [parseECHConfigList]
    · simp only [List.length_cons] at hlen; omega
  · intro b0 b1 rest hne
    simp only [parseECHConfigList]
    rw [if_pos hne]
  · intro b0 b1 rest hlt hne
    simp only [parseECHConfigList]
    rw [if_pos (by rw [Nat.mod_eq_of_lt hlt]; exact hne)]

theorem C3_witness :
    parseECHConfigList [byte 0, byte 9, byte 0, byte 0, byte 0, byte 0,
      byte 0, byte 0, byte 0, byte 0] = none :=
  C3_amended.2.1 (byte 0) (byte 9) [byte 0, byte 0, byte 0, byte 0, byte 0, byte 0,
    byte 0, byte 0] (by decide)

theorem C6_witness : ValidDNSNameSpec dnsNameGood :=
  (C6_validDNSName.1 dnsNameGood).mp (by decide)
